import Mathlib

/-!
Shallow embedding of `slasher/db/attester_slashings.go`: a status-indexed
evidence store over a byte-sorted transactional key-value table.  The
external collaborators (the ssz hash, the protobuf serializer, and the
engine's bucket primitives) are parameters, following the spec's component
boundaries; transactions are modelled by explicit state passing with
rollback-on-error semantics.
-/

namespace SlasherDB

abbrev Byte := Nat

abbrev Key := List Byte

abbrev Val := List Byte

abbrev SlashingStatus := Byte

abbrev SlashingType := Byte

/-- Modelled from the spec: the attester evidence kind byte
(`SlashingType(Attestation)`); the `SlashingType` enumeration is defined
outside this file, the spec fixes only that it is a single reserved byte. -/
def Attestation : SlashingType := 1

/-- Modelled from the spec: key codec for the status-scan key
`[Status:1 byte][Kind:1 byte]` (source symbol `encodeStatusType`). -/
def encodeStatusType (status : SlashingStatus) (t : SlashingType) : Key :=
  [status, t]

/-- Modelled from the spec: key codec for the full key
`[Status:1 byte][Kind:1 byte][ContentDigest:32 bytes]`
(source symbol `encodeStatusTypeRoot`). -/
def encodeStatusTypeRoot (status : SlashingStatus) (t : SlashingType)
    (root : List Byte) : Key :=
  status :: t :: root

/-- Bytewise lexicographic order on keys: the sort order of the engine's
key space (`bytes.Compare` semantics, a proper leading part sorts first). -/
def keyLt : Key → Key → Bool
  | [], [] => false
  | [], _ :: _ => true
  | _ :: _, [] => false
  | a :: as, b :: bs => decide (a < b) || (a == b && keyLt as bs)

/-- The slashing bucket: the engine's single sorted table, modelled as an
association list of key/value pairs kept strictly ascending in `keyLt`. -/
abbrev Table := List (Key × Val)

/-- The engine keeps keys strictly sorted and unique; every reachable table
satisfies this. -/
def TSorted (t : Table) : Prop :=
  t.Pairwise (fun a b => keyLt a.1 b.1 = true)

/-- Engine `Bucket.Put`: insert at the sorted position, replacing an
existing entry carrying the same key. -/
def put : Table → Key → Val → Table
  | [], k, v => [(k, v)]
  | kv :: rest, k, v =>
    if keyLt k kv.1 then (k, v) :: kv :: rest
    else if k = kv.1 then (k, v) :: rest
    else kv :: put rest k v

/-- Engine `Bucket.Delete`: remove the entry with the given key, if present. -/
def del (t : Table) (k : Key) : Table :=
  t.filter (fun kv => kv.1 != k)

/-- Engine cursor scan
`for k, v := c.Seek(pre); k != nil && bytes.HasPrefix(k, pre); k, v = c.Next()`:
seek to the first key not below `pre`, then iterate while the key retains `pre`. -/
def seekScan (t : Table) (pre : Key) : Table :=
  (t.dropWhile (fun kv => keyLt kv.1 pre)).takeWhile
    (fun kv => pre.isPrefixOf kv.1)

section Store

variable {Evidence : Type}

/-- errors.Wrap: prefix an error with a short description of the failing
operation. -/
def wrapErr (msg e : String) : String := msg ++ ": " ++ e

/-- createAttesterSlashing: decode one stored payload via the serializer
(`proto.Unmarshal`), wrapping a failure. -/
def createAttesterSlashing (unmarshal : Val → Except String Evidence)
    (enc : Val) : Except String Evidence :=
  match unmarshal enc with
  | .error e => .error (wrapErr "failed to unmarshal encoding" e)
  | .ok x => .ok x

/-- Decode loop of `AttesterSlashings`: decode each collected value in
order, aborting the whole read on the first failure. -/
def decodeAll (unmarshal : Val → Except String Evidence) :
    List Val → Except String (List Evidence)
  | [] => .ok []
  | v :: vs =>
    match createAttesterSlashing unmarshal v with
    | .error e => .error e
    | .ok x =>
      match decodeAll unmarshal vs with
      | .error e => .error e
      | .ok xs => .ok (x :: xs)

/-- AttesterSlashings: inside a view transaction collect the raw values
under the `(status, Attestation)` status-scan key, then decode them all. -/
def attesterSlashings (unmarshal : Val → Except String Evidence)
    (t : Table) (status : SlashingStatus) : Except String (List Evidence) :=
  decodeAll unmarshal
    ((seekScan t (encodeStatusType status Attestation)).map (fun kv => kv.2))

/-- Cursor loop of `AttestingSlashingsByStatus`: decode each scanned entry
inside the view transaction, aborting on the first failure. -/
def scanDecode (unmarshal : Val → Except String Evidence) :
    Table → Except String (List Evidence)
  | [] => .ok []
  | kv :: rest =>
    match createAttesterSlashing unmarshal kv.2 with
    | .error e => .error e
    | .ok x =>
      match scanDecode unmarshal rest with
      | .error e => .error e
      | .ok xs => .ok (x :: xs)

/-- AttestingSlashingsByStatus: scan the `(status, Attestation)` range and
decode during the scan. -/
def attestingSlashingsByStatus (unmarshal : Val → Except String Evidence)
    (t : Table) (status : SlashingStatus) : Except String (List Evidence) :=
  scanDecode unmarshal (seekScan t (encodeStatusType status Attestation))

/-- HasAttesterSlashing: hash the evidence, then scan the whole table from
the first key, returning the first key whose trailing bytes equal the
digest; the status is recovered from the key's first byte (`k[0]`,
zero-valued when no match is found). -/
def hasAttesterSlashing (hashTreeRoot : Evidence → Except String (List Byte))
    (t : Table) (e : Evidence) : Except String (Bool × SlashingStatus) :=
  match hashTreeRoot e with
  | .error err => .error (wrapErr "failed to get hash root of attesterSlashing" err)
  | .ok root =>
    match t.find? (fun kv => root.isSuffixOf kv.1) with
    | some kv => .ok (true, kv.1.headD 0)
    | none => .ok (false, 0)

/-- Delete loop of `updateAttesterSlashingStatus`: delete each collected
key in turn. -/
def delKeys (t : Table) (ks : List Key) : Table :=
  ks.foldl (fun acc k => del acc k) t

/-- updateAttesterSlashingStatus: inside one update transaction, collect
every key whose suffix matches the digest, delete them all, then insert a
single entry keyed `(status, Attestation, digest)` holding the marshalled
payload. -/
def updateAttesterSlashingStatus
    (hashTreeRoot : Evidence → Except String (List Byte))
    (marshal : Evidence → Except String Val)
    (t : Table) (e : Evidence) (status : SlashingStatus) :
    Except String Table :=
  match hashTreeRoot e with
  | .error err => .error (wrapErr "failed to get hash root of attesterSlashing" err)
  | .ok root =>
    let keysToDelete :=
      (t.filter (fun kv => root.isSuffixOf kv.1)).map (fun kv => kv.1)
    let t2 := delKeys t keysToDelete
    match marshal e with
    | .error err => .error (wrapErr "failed to marshal" err)
    | .ok enc => .ok (put t2 (encodeStatusTypeRoot status Attestation root) enc)

/-- SaveAttesterSlashing: check existence; a record already carrying this
status makes the call a no-op, otherwise route through the status
transition routine. -/
def saveAttesterSlashing
    (hashTreeRoot : Evidence → Except String (List Byte))
    (marshal : Evidence → Except String Val)
    (t : Table) (status : SlashingStatus) (e : Evidence) :
    Except String Table :=
  match hasAttesterSlashing hashTreeRoot t e with
  | .error err =>
    .error (wrapErr "failed to check if attester slashing is already in db" err)
  | .ok (found, st) =>
    if found && st == status then .ok t
    else updateAttesterSlashingStatus hashTreeRoot marshal t e status

/-- DeleteAttesterSlashingWithStatus: hash the evidence and delete exactly
the key `(status, Attestation, digest)`. -/
def deleteAttesterSlashingWithStatus
    (hashTreeRoot : Evidence → Except String (List Byte))
    (t : Table) (status : SlashingStatus) (e : Evidence) :
    Except String Table :=
  match hashTreeRoot e with
  | .error err => .error (wrapErr "failed to get hash root of attesterSlashing" err)
  | .ok root =>
    .ok (del t (encodeStatusTypeRoot status Attestation root))

/-- The engine's bucket delete as actually provided by a healthy engine:
always succeeds. `deleteAttesterSlashing` is parametrised over this
primitive because the source calls `b.Delete(k)` inside `ForEach` and
discards its error result. -/
def engineDel (t : Table) (k : Key) : Except String Table :=
  .ok (del t k)

/-- DeleteAttesterSlashing: hash the evidence, then `ForEach` over the
bucket deleting every key whose suffix matches the digest.  The result of
`b.Delete(k)` is ignored by the source (a failed delete leaves the entry in
place and the iteration continues), the callback always returns nil, and so
does the transaction body: the call reports success whenever hashing
succeeded. -/
def deleteAttesterSlashing
    (hashTreeRoot : Evidence → Except String (List Byte))
    (bDelete : Table → Key → Except String Table)
    (t : Table) (e : Evidence) : Except String Table :=
  match hashTreeRoot e with
  | .error err => .error (wrapErr "failed to get hash root of attester slashing" err)
  | .ok root =>
    .ok ((t.map (fun kv => kv.1)).foldl
      (fun acc k =>
        if root.isSuffixOf k then
          match bDelete acc k with
          | .ok acc2 => acc2
          | .error _ => acc
        else acc) t)

/-- The table state after one `SaveAttesterSlashing` call: an error rolls
the transaction back, leaving the table unchanged. -/
def saveStep (hashTreeRoot : Evidence → Except String (List Byte))
    (marshal : Evidence → Except String Val)
    (t : Table) (status : SlashingStatus) (e : Evidence) : Table :=
  match saveAttesterSlashing hashTreeRoot marshal t status e with
  | .ok t' => t'
  | .error _ => t

/-- The table state after a finite sequence of `SaveAttesterSlashing`
calls, any statuses and objects interleaved. -/
def saveSeq (hashTreeRoot : Evidence → Except String (List Byte))
    (marshal : Evidence → Except String Val) :
    Table → List (SlashingStatus × Evidence) → Table
  | t, [] => t
  | t, (s, e) :: ops => saveSeq hashTreeRoot marshal (saveStep hashTreeRoot marshal t s e) ops

end Store

/-- Number of stored records whose key's trailing bytes equal `root`. -/
def digestCount (t : Table) (root : List Byte) : Nat :=
  t.countP (fun kv => root.isSuffixOf kv.1)

/-- Whether a stored value deserializes to the given evidence object. -/
def decodesTo {Evidence : Type} [DecidableEq Evidence]
    (unmarshal : Val → Except String Evidence) (y : Evidence) (v : Val) : Bool :=
  match unmarshal v with
  | .ok x => decide (x = y)
  | .error _ => false

/-- A concrete collaborator hash used to evaluate the store on closed
inputs: a 32-byte digest determined by the evidence object. -/
def hashW (n : Nat) : Except String (List Byte) := .ok (List.replicate 32 n)

/-- A concrete collaborator serializer for closed evaluations. -/
def marshalW (n : Nat) : Except String Val := .ok [n]

/-- The matching concrete deserializer; it round-trips `marshalW` and
rejects every other encoding. -/
def unmarshalW : Val → Except String Nat
  | [n] => .ok n
  | _ => .error "malformed encoding"

/-- A hash collaborator that always fails, for exercising the digest
failure path on closed inputs. -/
def hashBad (_ : Nat) : Except String (List Byte) := .error "ssz failure"

/-- An engine whose bucket delete always fails, for exercising the
store's handling of engine delete errors on closed inputs. -/
def badDel (_ : Table) (_ : Key) : Except String Table := .error "disk failure"

/-! ### Order lemmas for the byte-sorted key space -/

theorem keyLt_trans : ∀ {a b c : Key},
    keyLt a b = true → keyLt b c = true → keyLt a c = true := by
  intro a
  induction a with
  | nil =>
    intro b c hab hbc
    cases b with
    | nil => simp [keyLt] at hab
    | cons y bs =>
      cases c with
      | nil => simp [keyLt] at hbc
      | cons z cs => simp [keyLt]
  | cons x as ih =>
    intro b c hab hbc
    cases b with
    | nil => simp [keyLt] at hab
    | cons y bs =>
      cases c with
      | nil => simp [keyLt] at hbc
      | cons z cs =>
        simp only [keyLt, Bool.or_eq_true, Bool.and_eq_true, decide_eq_true_eq,
          beq_iff_eq] at hab hbc ⊢
        rcases hab with h1 | ⟨h1, h1'⟩ <;> rcases hbc with h2 | ⟨h2, h2'⟩
        · exact Or.inl (Nat.lt_trans h1 h2)
        · exact Or.inl (h2 ▸ h1)
        · exact Or.inl (h1 ▸ h2)
        · exact Or.inr ⟨h1.trans h2, ih h1' h2'⟩

theorem keyLt_irrefl : ∀ a : Key, keyLt a a = false := by
  intro a
  induction a with
  | nil => simp [keyLt]
  | cons x as ih => simp [keyLt, ih]

theorem keyLt_of_not_lt : ∀ {a b : Key},
    keyLt a b = false → a ≠ b → keyLt b a = true := by
  intro a
  induction a with
  | nil =>
    intro b hab hne
    cases b with
    | nil => exact absurd rfl hne
    | cons y bs => simp [keyLt] at hab
  | cons x as ih =>
    intro b hab hne
    cases b with
    | nil => simp [keyLt]
    | cons y bs =>
      simp only [keyLt, Bool.or_eq_false_iff, Bool.and_eq_false_iff,
        decide_eq_false_iff_not, beq_eq_false_iff_ne] at hab
      obtain ⟨h1, h2⟩ := hab
      simp only [keyLt, Bool.or_eq_true, Bool.and_eq_true, decide_eq_true_eq,
        beq_iff_eq]
      rcases Nat.lt_or_ge y x with h | h
      · exact Or.inl h
      · have hxy : x = y := Nat.le_antisymm h (Nat.le_of_not_lt h1)
        rcases h2 with h2 | h2
        · exact absurd hxy h2
        · refine Or.inr ⟨hxy.symm, ih h2 ?_⟩
          intro hx
          exact hne (by rw [hxy, hx])

theorem not_keyLt_of_isPrefixOf : ∀ {p k : Key},
    p.isPrefixOf k = true → keyLt k p = false := by
  intro p
  induction p with
  | nil =>
    intro k h
    cases k with
    | nil => simp [keyLt]
    | cons y ks => simp [keyLt]
  | cons x ps ih =>
    intro k h
    cases k with
    | nil => simp [List.isPrefixOf] at h
    | cons y ks =>
      simp only [List.isPrefixOf, Bool.and_eq_true, beq_iff_eq] at h
      obtain ⟨rfl, h2⟩ := h
      simp only [keyLt, Bool.or_eq_true, Bool.and_eq_true, decide_eq_true_eq,
        beq_iff_eq]
      simp [Nat.lt_irrefl, ih h2]

theorem isPrefixOf_false_of_between : ∀ {p b c : Key},
    keyLt b p = false → p.isPrefixOf b = false → keyLt b c = true →
    p.isPrefixOf c = false := by
  intro p
  induction p with
  | nil =>
    intro b c _ h2 _
    simp [List.isPrefixOf] at h2
  | cons x ps ih =>
    intro b c h1 h2 h3
    cases b with
    | nil => simp [keyLt] at h1
    | cons y bs =>
      cases c with
      | nil => simp [keyLt] at h3
      | cons z cs =>
        simp only [keyLt, Bool.or_eq_false_iff, Bool.and_eq_false_iff,
          decide_eq_false_iff_not, beq_eq_false_iff_ne] at h1
        simp only [keyLt, Bool.or_eq_true, Bool.and_eq_true, decide_eq_true_eq,
          beq_iff_eq] at h3
        obtain ⟨h1a, h1b⟩ := h1
        simp only [List.isPrefixOf, Bool.and_eq_false_iff,
          beq_eq_false_iff_ne] at h2
        simp only [List.isPrefixOf, Bool.and_eq_false_iff,
          beq_eq_false_iff_ne]
        rcases h3 with h3 | ⟨rfl, h3'⟩
        · refine Or.inl ?_
          intro hxz
          subst hxz
          exact h1a h3
        · rcases h1b with h1b | h1b
          · exact Or.inl (Ne.symm h1b)
          · rcases h2 with h2 | h2
            · exact Or.inl h2
            · exact Or.inr (ih h1b h2 h3')

/-! ### Lemmas about the engine operations -/

theorem put_cons (hd : Key × Val) (rest : Table) (k : Key) (v : Val) :
    put (hd :: rest) k v =
      if keyLt k hd.1 = true then (k, v) :: hd :: rest
      else if k = hd.1 then (k, v) :: rest
      else hd :: put rest k v := rfl

theorem mem_put : ∀ {t : Table} {k : Key} {v : Val} {kv : Key × Val},
    kv ∈ put t k v → kv = (k, v) ∨ kv ∈ t := by
  intro t
  induction t with
  | nil =>
    intro k v kv h
    simp [put] at h
    exact Or.inl h
  | cons hd rest ih =>
    intro k v kv h
    rw [put_cons] at h
    by_cases h1 : keyLt k hd.1 = true
    · rw [if_pos h1] at h
      rcases List.mem_cons.mp h with h | h
      · exact Or.inl h
      · exact Or.inr h
    · rw [if_neg h1] at h
      by_cases h2 : k = hd.1
      · rw [if_pos h2] at h
        rcases List.mem_cons.mp h with h | h
        · exact Or.inl h
        · exact Or.inr (List.mem_cons_of_mem _ h)
      · rw [if_neg h2] at h
        rcases List.mem_cons.mp h with h | h
        · exact Or.inr (h ▸ List.mem_cons_self _ _)
        · rcases ih h with h | h
          · exact Or.inl h
          · exact Or.inr (List.mem_cons_of_mem _ h)

theorem self_mem_put : ∀ (t : Table) (k : Key) (v : Val), (k, v) ∈ put t k v := by
  intro t
  induction t with
  | nil =>
    intro k v
    simp [put]
  | cons hd rest ih =>
    intro k v
    rw [put_cons]
    by_cases h1 : keyLt k hd.1 = true
    · rw [if_pos h1]
      exact List.mem_cons_self _ _
    · rw [if_neg h1]
      by_cases h2 : k = hd.1
      · rw [if_pos h2]
        exact List.mem_cons_self _ _
      · rw [if_neg h2]
        exact List.mem_cons_of_mem _ (ih k v)

theorem countP_put (p : Key × Val → Bool) (k : Key) (v : Val) :
    ∀ t : Table, (∀ kv ∈ t, kv.1 ≠ k) →
    (put t k v).countP p = t.countP p + (if p (k, v) then 1 else 0) := by
  intro t
  induction t with
  | nil =>
    intro _
    simp [put, List.countP_cons]
  | cons hd rest ih =>
    intro h
    rw [put_cons]
    by_cases h1 : keyLt k hd.1 = true
    · rw [if_pos h1]
      simp only [List.countP_cons]
    · rw [if_neg h1]
      by_cases h2 : k = hd.1
      · exact absurd h2.symm (h hd (List.mem_cons_self _ _))
      · rw [if_neg h2]
        have hih := ih (fun kv hkv => h kv (List.mem_cons_of_mem _ hkv))
        simp only [List.countP_cons, hih]
        omega

theorem TSorted_filter {t : Table} (p : Key × Val → Bool) (h : TSorted t) :
    TSorted (t.filter p) :=
  List.Pairwise.filter p h

theorem TSorted_put : ∀ {t : Table} (k : Key) (v : Val),
    TSorted t → TSorted (put t k v) := by
  intro t
  induction t with
  | nil =>
    intro k v _
    simp [put, TSorted]
  | cons hd rest ih =>
    intro k v h
    unfold TSorted at h ⊢
    rw [List.pairwise_cons] at h
    obtain ⟨hall, hrest⟩ := h
    rw [put_cons]
    by_cases h1 : keyLt k hd.1 = true
    · rw [if_pos h1, List.pairwise_cons]
      constructor
      · intro b hb
        rcases List.mem_cons.mp hb with rfl | hb
        · exact h1
        · exact keyLt_trans h1 (hall b hb)
      · rw [List.pairwise_cons]
        exact ⟨hall, hrest⟩
    · rw [if_neg h1]
      by_cases h2 : k = hd.1
      · rw [if_pos h2, List.pairwise_cons]
        exact ⟨fun b hb => h2 ▸ hall b hb, hrest⟩
      · rw [if_neg h2, List.pairwise_cons]
        constructor
        · intro b hb
          rcases mem_put hb with rfl | hb
          · exact keyLt_of_not_lt (Bool.eq_false_iff.mpr h1) (fun he => h2 he)
          · exact hall b hb
        · exact ih k v hrest

theorem delKeys_eq_filter : ∀ (ks : List Key) (t : Table),
    delKeys t ks = t.filter (fun kv => !decide (kv.1 ∈ ks)) := by
  intro ks
  induction ks with
  | nil =>
    intro t
    simp [delKeys]
  | cons k ks ih =>
    intro t
    have step : delKeys t (k :: ks) = delKeys (del t k) ks := rfl
    rw [step, ih, del, List.filter_filter]
    apply List.filter_congr
    intro kv _
    by_cases h1 : kv.1 = k <;> by_cases h2 : kv.1 ∈ ks <;>
      simp [h1, h2, List.mem_cons]

theorem delKeys_suffix_eq_filter (t : Table) (root : List Byte) :
    delKeys t ((t.filter (fun kv => root.isSuffixOf kv.1)).map (fun kv => kv.1))
      = t.filter (fun kv => !root.isSuffixOf kv.1) := by
  rw [delKeys_eq_filter]
  apply List.filter_congr
  intro kv hkv
  by_cases h : root.isSuffixOf kv.1 = true
  · have hmem : kv.1 ∈ (t.filter (fun kv => root.isSuffixOf kv.1)).map (fun kv => kv.1) :=
      List.mem_map.mpr ⟨kv, List.mem_filter.mpr ⟨hkv, h⟩, rfl⟩
    simp [hmem, h]
  · have hmem : kv.1 ∉ (t.filter (fun kv => root.isSuffixOf kv.1)).map (fun kv => kv.1) := by
      intro hcon
      obtain ⟨kv', hkv', heq⟩ := List.mem_map.mp hcon
      have h1 := (List.mem_filter.mp hkv').2
      rw [heq] at h1
      exact h h1
    simp only [Bool.not_eq_true] at h
    simp [hmem, h]

theorem find?_eq_some_of_unique {p : Key × Val → Bool} :
    ∀ {l : Table} {kv : Key × Val}, kv ∈ l → p kv = true →
    (∀ kv' ∈ l, p kv' = true → kv' = kv) → l.find? p = some kv := by
  intro l
  induction l with
  | nil =>
    intro kv h
    simp at h
  | cons hd rest ih =>
    intro kv hmem hp huniq
    by_cases hhd : p hd = true
    · have heq : hd = kv := huniq hd (List.mem_cons_self _ _) hhd
      rw [List.find?_cons_of_pos _ hhd, heq]
    · rw [List.find?_cons_of_neg _ hhd]
      rcases List.mem_cons.mp hmem with rfl | hmem
      · exact absurd hp hhd
      · exact ih hmem hp (fun kv' h' hp' => huniq kv' (List.mem_cons_of_mem _ h') hp')

theorem takeWhile_eq_filter_of_sorted (pre : Key) : ∀ {t : Table},
    TSorted t → (∀ kv ∈ t, keyLt kv.1 pre = false) →
    t.takeWhile (fun kv => pre.isPrefixOf kv.1)
      = t.filter (fun kv => pre.isPrefixOf kv.1) := by
  intro t
  induction t with
  | nil =>
    intro _ _
    rfl
  | cons hd rest ih =>
    intro hs hge
    unfold TSorted at hs
    rw [List.pairwise_cons] at hs
    obtain ⟨hall, hrest⟩ := hs
    by_cases hp : pre.isPrefixOf hd.1 = true
    · rw [List.takeWhile_cons, List.filter_cons]
      simp only [hp, if_true]
      rw [ih hrest (fun kv hkv => hge kv (List.mem_cons_of_mem _ hkv))]
    · have hp' : pre.isPrefixOf hd.1 = false := Bool.eq_false_iff.mpr hp
      rw [List.takeWhile_cons, List.filter_cons]
      simp only [hp', Bool.false_eq_true, if_false]
      have hnone : ∀ kv ∈ rest, pre.isPrefixOf kv.1 = false := fun kv hkv =>
        isPrefixOf_false_of_between (hge hd (List.mem_cons_self _ _)) hp' (hall kv hkv)
      rw [Eq.comm, List.filter_eq_nil_iff]
      intro kv hkv
      simp [hnone kv hkv]

theorem seekScan_eq_filter (pre : Key) : ∀ {t : Table}, TSorted t →
    seekScan t pre = t.filter (fun kv => pre.isPrefixOf kv.1) := by
  intro t
  induction t with
  | nil =>
    intro _
    rfl
  | cons hd rest ih =>
    intro hs
    have hs2 := hs
    unfold TSorted at hs2
    rw [List.pairwise_cons] at hs2
    obtain ⟨hall, hrest⟩ := hs2
    unfold seekScan
    by_cases h1 : keyLt hd.1 pre = true
    · have hp : pre.isPrefixOf hd.1 = false := by
        by_contra hb
        rw [Bool.not_eq_false] at hb
        rw [not_keyLt_of_isPrefixOf hb] at h1
        exact Bool.false_ne_true h1
      rw [List.dropWhile_cons]
      simp only [h1, if_true]
      rw [List.filter_cons]
      simp only [hp, Bool.false_eq_true, if_false]
      exact ih hrest
    · have h1' : keyLt hd.1 pre = false := Bool.eq_false_iff.mpr h1
      rw [List.dropWhile_cons]
      simp only [h1', Bool.false_eq_true, if_false]
      apply takeWhile_eq_filter_of_sorted pre hs
      intro kv hkv
      rcases List.mem_cons.mp hkv with rfl | hkv
      · exact h1'
      · by_contra hb
        rw [Bool.not_eq_false] at hb
        exact h1 (keyLt_trans (hall kv hkv) hb)

theorem mem_seekScan {t : Table} {pre : Key} {kv : Key × Val}
    (h : kv ∈ seekScan t pre) : kv ∈ t ∧ pre.isPrefixOf kv.1 = true := by
  unfold seekScan at h
  refine ⟨?_, List.mem_takeWhile_imp (p := fun kv : Key × Val => pre.isPrefixOf kv.1) h⟩
  exact (List.dropWhile_sublist _).mem ((List.takeWhile_sublist _).mem h)

/-! ### Lemmas about the decode loops -/

theorem createAttesterSlashing_ok_iff {Evidence : Type}
    (unm : Val → Except String Evidence) (v : Val) (x : Evidence) :
    createAttesterSlashing unm v = .ok x ↔ unm v = .ok x := by
  unfold createAttesterSlashing
  cases h : unm v <;> simp

theorem decodeAll_forall₂ {Evidence : Type} (unm : Val → Except String Evidence) :
    ∀ {vs : List Val} {l : List Evidence}, decodeAll unm vs = .ok l →
    List.Forall₂ (fun v x => unm v = .ok x) vs l := by
  intro vs
  induction vs with
  | nil =>
    intro l h
    simp only [decodeAll] at h
    injection h with h
    subst h
    exact List.Forall₂.nil
  | cons v vs ih =>
    intro l h
    simp only [decodeAll] at h
    cases hc : createAttesterSlashing unm v with
    | error e =>
      rw [hc] at h
      exact absurd h (by simp)
    | ok x =>
      rw [hc] at h
      cases hd : decodeAll unm vs with
      | error e =>
        rw [hd] at h
        exact absurd h (by simp)
      | ok xs =>
        rw [hd] at h
        injection h with h
        subst h
        exact List.Forall₂.cons ((createAttesterSlashing_ok_iff unm v x).mp hc) (ih hd)

theorem decodeAll_isOk_of_all {Evidence : Type} (unm : Val → Except String Evidence) :
    ∀ vs : List Val, (∀ v ∈ vs, ∃ x : Evidence, unm v = .ok x) →
    ∃ l, decodeAll unm vs = .ok l := by
  intro vs
  induction vs with
  | nil =>
    intro _
    exact ⟨[], rfl⟩
  | cons v vs ih =>
    intro h
    obtain ⟨x, hx⟩ := h v (List.mem_cons_self _ _)
    obtain ⟨l, hl⟩ := ih (fun v' hv' => h v' (List.mem_cons_of_mem _ hv'))
    refine ⟨x :: l, ?_⟩
    simp [decodeAll, createAttesterSlashing, hx, hl]

theorem decodeAll_isError_of_mem {Evidence : Type} (unm : Val → Except String Evidence) :
    ∀ {vs : List Val} {v : Val} {e : String}, v ∈ vs → unm v = .error e →
    ∃ e2, decodeAll unm vs = .error e2 := by
  intro vs
  induction vs with
  | nil =>
    intro v e h _
    simp at h
  | cons v' vs ih =>
    intro v e hmem herr
    rcases List.mem_cons.mp hmem with rfl | hmem
    · exact ⟨wrapErr "failed to unmarshal encoding" e,
        by simp [decodeAll, createAttesterSlashing, herr]⟩
    · cases hc : createAttesterSlashing unm v' with
      | error e2 => exact ⟨e2, by simp [decodeAll, hc]⟩
      | ok x =>
        obtain ⟨e2, he2⟩ := ih hmem herr
        exact ⟨e2, by simp [decodeAll, hc, he2]⟩

theorem scanDecode_eq_decodeAll {Evidence : Type} (unm : Val → Except String Evidence) :
    ∀ l : Table, scanDecode unm l = decodeAll unm (l.map (fun kv => kv.2)) := by
  intro l
  induction l with
  | nil => rfl
  | cons kv rest ih =>
    simp only [scanDecode, List.map_cons, decodeAll, ih]

theorem count_of_forall₂ {Evidence : Type} [DecidableEq Evidence]
    (unm : Val → Except String Evidence) (y : Evidence) :
    ∀ {vs : List Val} {l : List Evidence},
    List.Forall₂ (fun v x => unm v = .ok x) vs l →
    l.count y = vs.countP (decodesTo unm y) := by
  intro vs l h
  induction h with
  | nil => simp
  | @cons v x vs' l' hvx _ ih =>
    simp only [List.count_cons, List.countP_cons, ih, decodesTo, hvx]
    by_cases hxy : x = y <;> simp [hxy]

theorem exists_src_of_forall₂_mem {Evidence : Type}
    {R : Val → Evidence → Prop} {y : Evidence} :
    ∀ {vs : List Val} {l : List Evidence}, List.Forall₂ R vs l → y ∈ l →
    ∃ v ∈ vs, R v y := by
  intro vs l h
  induction h with
  | nil =>
    intro h
    simp at h
  | @cons v x vs' l' hvx _ ih =>
    intro hmem
    rcases List.mem_cons.mp hmem with rfl | hmem
    · exact ⟨v, List.mem_cons_self _ _, hvx⟩
    · obtain ⟨v', hv', hR⟩ := ih hmem
      exact ⟨v', List.mem_cons_of_mem _ hv', hR⟩

/-! ### The status transition routine -/

theorem isSuffixOf_encode (s ty : Byte) (root : List Byte) :
    root.isSuffixOf (encodeStatusTypeRoot s ty root) = true := by
  simp only [List.isSuffixOf_iff_suffix]
  exact ⟨[s, ty], rfl⟩

theorem isSuffixOf_encode_iff {r root : List Byte} (s ty : Byte)
    (hr : r.length = 32) (hroot : root.length = 32) :
    r.isSuffixOf (encodeStatusTypeRoot s ty root) = true ↔ r = root := by
  simp only [List.isSuffixOf_iff_suffix]
  constructor
  · rintro ⟨u, hu⟩
    have hlen : u.length + r.length = (encodeStatusTypeRoot s ty root).length := by
      rw [← hu]
      simp
    have hlen2 : (encodeStatusTypeRoot s ty root).length = root.length + 2 := by
      simp [encodeStatusTypeRoot]
    have hu2 : u.length = 2 := by omega
    obtain ⟨a, b, rfl⟩ := List.length_eq_two.mp hu2
    simp only [encodeStatusTypeRoot, List.cons_append, List.nil_append,
      List.cons.injEq] at hu
    exact hu.2.2
  · rintro rfl
    exact ⟨[s, ty], rfl⟩

theorem update_eq {Evidence : Type}
    (hashTreeRoot : Evidence → Except String (List Byte))
    (marshal : Evidence → Except String Val)
    {t : Table} {e : Evidence} {s : SlashingStatus} {root : List Byte} {enc : Val}
    (hr : hashTreeRoot e = .ok root) (hm : marshal e = .ok enc) :
    updateAttesterSlashingStatus hashTreeRoot marshal t e s =
      .ok (put (t.filter (fun kv => !root.isSuffixOf kv.1))
        (encodeStatusTypeRoot s Attestation root) enc) := by
  simp only [updateAttesterSlashingStatus, hr, hm]
  rw [delKeys_suffix_eq_filter]

theorem update_isOk {Evidence : Type}
    (hashTreeRoot : Evidence → Except String (List Byte))
    (marshal : Evidence → Except String Val)
    {t t' : Table} {e : Evidence} {s : SlashingStatus}
    (hu : updateAttesterSlashingStatus hashTreeRoot marshal t e s = .ok t') :
    ∃ root enc, hashTreeRoot e = .ok root ∧ marshal e = .ok enc ∧
      t' = put (t.filter (fun kv => !root.isSuffixOf kv.1))
        (encodeStatusTypeRoot s Attestation root) enc := by
  cases hr : hashTreeRoot e with
  | error err =>
    simp only [updateAttesterSlashingStatus, hr] at hu
    exact Except.noConfusion hu
  | ok root =>
    cases hm : marshal e with
    | error err =>
      simp only [updateAttesterSlashingStatus, hr, hm] at hu
      exact Except.noConfusion hu
    | ok enc =>
      rw [update_eq hashTreeRoot marshal hr hm] at hu
      injection hu with hu
      exact ⟨root, enc, rfl, rfl, hu.symm⟩

theorem mem_after_update {t : Table} {root : List Byte} {k : Key} {enc : Val}
    {kv : Key × Val}
    (h : kv ∈ put (t.filter (fun kv => !root.isSuffixOf kv.1)) k enc) :
    kv = (k, enc) ∨ (kv ∈ t ∧ root.isSuffixOf kv.1 = false) := by
  rcases mem_put h with h | h
  · exact Or.inl h
  · have h2 := List.mem_filter.mp h
    exact Or.inr ⟨h2.1, by simpa using h2.2⟩

theorem has_after_update {Evidence : Type}
    (hashTreeRoot : Evidence → Except String (List Byte))
    (marshal : Evidence → Except String Val)
    {t t' : Table} {e : Evidence} {s : SlashingStatus}
    (hu : updateAttesterSlashingStatus hashTreeRoot marshal t e s = .ok t') :
    hasAttesterSlashing hashTreeRoot t' e = .ok (true, s) := by
  obtain ⟨root, enc, hr, hm, ht'⟩ := update_isOk hashTreeRoot marshal hu
  have hfind : t'.find? (fun kv => root.isSuffixOf kv.1)
      = some (encodeStatusTypeRoot s Attestation root, enc) := by
    apply find?_eq_some_of_unique
    · rw [ht']
      exact self_mem_put _ _ _
    · exact isSuffixOf_encode s Attestation root
    · intro kv' hkv' hp'
      rw [ht'] at hkv'
      rcases mem_after_update hkv' with h | h
      · exact h
      · rw [h.2] at hp'
        exact absurd hp' (by simp)
  simp only [hasAttesterSlashing, hr, hfind]
  rfl

theorem save_result {Evidence : Type}
    (hashTreeRoot : Evidence → Except String (List Byte))
    (marshal : Evidence → Except String Val)
    {t t' : Table} {s : SlashingStatus} {e : Evidence}
    (h : saveAttesterSlashing hashTreeRoot marshal t s e = .ok t') :
    (t' = t ∧ hasAttesterSlashing hashTreeRoot t e = .ok (true, s))
    ∨ updateAttesterSlashingStatus hashTreeRoot marshal t e s = .ok t' := by
  cases hh : hasAttesterSlashing hashTreeRoot t e with
  | error err =>
    simp only [saveAttesterSlashing, hh] at h
    exact Except.noConfusion h
  | ok p =>
    obtain ⟨found, st⟩ := p
    simp only [saveAttesterSlashing, hh] at h
    by_cases hc : (found && st == s) = true
    · rw [if_pos hc] at h
      injection h with h
      rw [Bool.and_eq_true, beq_iff_eq] at hc
      obtain ⟨hf, hst⟩ := hc
      subst hf hst
      exact Or.inl ⟨h.symm, rfl⟩
    · rw [if_neg hc] at h
      exact Or.inr h

theorem save_stable {Evidence : Type}
    (hashTreeRoot : Evidence → Except String (List Byte))
    (marshal : Evidence → Except String Val)
    {t t' : Table} {s : SlashingStatus} {e : Evidence}
    (h : saveAttesterSlashing hashTreeRoot marshal t s e = .ok t') :
    saveAttesterSlashing hashTreeRoot marshal t' s e = .ok t' := by
  rcases save_result hashTreeRoot marshal h with ⟨rfl, hhas⟩ | hupd
  · simp only [saveAttesterSlashing, hhas]
    simp
  · have hhas := has_after_update hashTreeRoot marshal hupd
    simp only [saveAttesterSlashing, hhas]
    simp

/-- C2: for every status `s`, evidence object `e`, and starting table
state, two consecutive `SaveAttesterSlashing` calls with the same
arguments leave the table after the second call in exactly the state left
by the first call (the second call is a no-op: `HasAttesterSlashing` finds
the object already stored with status `s`; when the first call fails, the
second fails the same way and both roll back). -/
theorem C2_save_idempotent {Evidence : Type}
    (hashTreeRoot : Evidence → Except String (List Byte))
    (marshal : Evidence → Except String Val)
    (t : Table) (s : SlashingStatus) (e : Evidence) :
    saveStep hashTreeRoot marshal (saveStep hashTreeRoot marshal t s e) s e
      = saveStep hashTreeRoot marshal t s e := by
  cases h : saveAttesterSlashing hashTreeRoot marshal t s e with
  | error err =>
    have h1 : saveStep hashTreeRoot marshal t s e = t := by
      simp [saveStep, h]
    rw [h1]
    exact h1
  | ok t' =>
    have h1 : saveStep hashTreeRoot marshal t s e = t' := by
      simp [saveStep, h]
    rw [h1]
    have h2 := save_stable hashTreeRoot marshal h
    simp [saveStep, h2]

/-- C4: immediately after a successful `SaveAttesterSlashing` with status
`s`, `HasAttesterSlashing` returns `found = true` together with exactly the
status `s` (recovered as the first byte of the matching key), with no
error. -/
theorem C4_has_after_save {Evidence : Type}
    (hashTreeRoot : Evidence → Except String (List Byte))
    (marshal : Evidence → Except String Val)
    (t t' : Table) (s : SlashingStatus) (e : Evidence)
    (h : saveAttesterSlashing hashTreeRoot marshal t s e = .ok t') :
    hasAttesterSlashing hashTreeRoot t' e = .ok (true, s) := by
  rcases save_result hashTreeRoot marshal h with ⟨rfl, hhas⟩ | hupd
  · exact hhas
  · exact has_after_update hashTreeRoot marshal hupd

/-- Witness for C4: saving evidence `5` with status `0` into the empty
table yields a table on which `HasAttesterSlashing` returns `(true, 0)`. -/
theorem C4_witness :
    hasAttesterSlashing hashW
      [((0 : Byte) :: (1 : Byte) :: List.replicate 32 5, [5])] 5
      = .ok (true, 0) :=
  C4_has_after_save hashW marshalW []
    [((0 : Byte) :: (1 : Byte) :: List.replicate 32 5, [5])] 0 5 rfl

/-! ### Digest uniqueness across save sequences -/

theorem filter_no_encode_key {t : Table} {root : List Byte} (s ty : Byte) :
    ∀ kv ∈ t.filter (fun kv => !root.isSuffixOf kv.1),
      kv.1 ≠ encodeStatusTypeRoot s ty root := by
  intro kv hkv heq
  have h2 := (List.mem_filter.mp hkv).2
  rw [heq, isSuffixOf_encode s ty root] at h2
  simp at h2

theorem digestCount_update_self {Evidence : Type}
    (hashTreeRoot : Evidence → Except String (List Byte))
    (marshal : Evidence → Except String Val)
    {t t' : Table} {e : Evidence} {s : SlashingStatus} {root : List Byte}
    (hr : hashTreeRoot e = .ok root)
    (hu : updateAttesterSlashingStatus hashTreeRoot marshal t e s = .ok t') :
    digestCount t' root = 1 := by
  obtain ⟨root', enc, hr', hm, ht'⟩ := update_isOk hashTreeRoot marshal hu
  rw [hr] at hr'
  injection hr' with hr'
  subst hr'
  subst ht'
  unfold digestCount
  rw [countP_put _ _ _ _ (filter_no_encode_key s Attestation)]
  rw [if_pos (isSuffixOf_encode s Attestation root)]
  have hz : (t.filter (fun kv => !root.isSuffixOf kv.1)).countP
      (fun kv => root.isSuffixOf kv.1) = 0 := by
    rw [List.countP_eq_zero]
    intro kv hkv
    have h2 := (List.mem_filter.mp hkv).2
    simp only [Bool.not_eq_true'] at h2
    simp [h2]
  rw [hz]

theorem digestCount_update_le {Evidence : Type}
    (hashTreeRoot : Evidence → Except String (List Byte))
    (marshal : Evidence → Except String Val)
    (Hlen : ∀ (e : Evidence) (r : List Byte), hashTreeRoot e = .ok r → r.length = 32)
    {t t' : Table} {e : Evidence} {s : SlashingStatus}
    (hu : updateAttesterSlashingStatus hashTreeRoot marshal t e s = .ok t')
    {r : List Byte} (hrlen : r.length = 32)
    (hle : digestCount t r ≤ 1) : digestCount t' r ≤ 1 := by
  obtain ⟨root, enc, hr, hm, ht'⟩ := update_isOk hashTreeRoot marshal hu
  by_cases hreq : r = root
  · subst hreq
    exact Nat.le_of_eq (digestCount_update_self hashTreeRoot marshal hr hu)
  · subst ht'
    unfold digestCount at hle ⊢
    rw [countP_put _ _ _ _ (filter_no_encode_key s Attestation)]
    have hroot32 := Hlen e root hr
    have hne : r.isSuffixOf (encodeStatusTypeRoot s Attestation root) = false := by
      by_contra hb
      rw [Bool.not_eq_false, isSuffixOf_encode_iff s Attestation hrlen hroot32] at hb
      exact hreq hb
    rw [hne]
    have hfle : (t.filter (fun kv => !root.isSuffixOf kv.1)).countP
        (fun kv => r.isSuffixOf kv.1) ≤ t.countP (fun kv => r.isSuffixOf kv.1) :=
      (List.filter_sublist t).countP_le _
    simp only [Bool.false_eq_true, if_false]
    omega

theorem digestCount_saveStep_le {Evidence : Type}
    (hashTreeRoot : Evidence → Except String (List Byte))
    (marshal : Evidence → Except String Val)
    (Hlen : ∀ (e : Evidence) (r : List Byte), hashTreeRoot e = .ok r → r.length = 32)
    {t : Table} {s : SlashingStatus} {e : Evidence}
    {r : List Byte} (hrlen : r.length = 32)
    (hle : digestCount t r ≤ 1) :
    digestCount (saveStep hashTreeRoot marshal t s e) r ≤ 1 := by
  cases h : saveAttesterSlashing hashTreeRoot marshal t s e with
  | error err =>
    simpa [saveStep, h] using hle
  | ok t' =>
    have h1 : saveStep hashTreeRoot marshal t s e = t' := by
      simp [saveStep, h]
    rw [h1]
    rcases save_result hashTreeRoot marshal h with ⟨rfl, _⟩ | hupd
    · exact hle
    · exact digestCount_update_le hashTreeRoot marshal Hlen hupd hrlen hle

theorem digestCount_saveSeq_le {Evidence : Type}
    (hashTreeRoot : Evidence → Except String (List Byte))
    (marshal : Evidence → Except String Val)
    (Hlen : ∀ (e : Evidence) (r : List Byte), hashTreeRoot e = .ok r → r.length = 32)
    (ops : List (SlashingStatus × Evidence)) :
    ∀ (t : Table) (r : List Byte), r.length = 32 → digestCount t r ≤ 1 →
    digestCount (saveSeq hashTreeRoot marshal t ops) r ≤ 1 := by
  induction ops with
  | nil =>
    intro t r _ hle
    exact hle
  | cons op rest ih =>
    intro t r hrlen hle
    obtain ⟨s, e⟩ := op
    exact ih (saveStep hashTreeRoot marshal t s e) r hrlen
      (digestCount_saveStep_le hashTreeRoot marshal Hlen hrlen hle)

/-- C1: starting from the empty table, after any finite sequence of
`SaveAttesterSlashing` calls (any statuses, saves of other objects
interleaved) at most one stored record has a key whose trailing 32 bytes
equal the digest of a given evidence object; moreover every write routed
through `updateAttesterSlashingStatus` ends with exactly one key carrying
that digest suffix (all prior copies deleted, one new key inserted).
The hypothesis `Hlen` records that the collaborator hash always produces
32-byte digests. -/
theorem C1_save_sequence_unique {Evidence : Type}
    (hashTreeRoot : Evidence → Except String (List Byte))
    (marshal : Evidence → Except String Val)
    (Hlen : ∀ (e : Evidence) (r : List Byte), hashTreeRoot e = .ok r → r.length = 32)
    (ops : List (SlashingStatus × Evidence)) (E : Evidence) (root : List Byte)
    (hE : hashTreeRoot E = .ok root) :
    digestCount (saveSeq hashTreeRoot marshal [] ops) root ≤ 1 ∧
    (∀ (t t' : Table) (s : SlashingStatus),
      updateAttesterSlashingStatus hashTreeRoot marshal t E s = .ok t' →
      digestCount t' root = 1) := by
  constructor
  · exact digestCount_saveSeq_le hashTreeRoot marshal Hlen ops []
      root (Hlen E root hE) (by simp [digestCount])
  · intro t t' s hu
    exact digestCount_update_self hashTreeRoot marshal hE hu

/-- Witness for C1: a two-step save sequence on evidence `5` (status `0`
then status `2`) leaves at most one record with digest suffix
`replicate 32 5`, and the concrete transition inserts exactly one. -/
theorem C1_witness :
    digestCount (saveSeq hashW marshalW [] [(0, 5), (2, 5)]) (List.replicate 32 5) ≤ 1 ∧
    (∀ (t t' : Table) (s : SlashingStatus),
      updateAttesterSlashingStatus hashW marshalW t 5 s = .ok t' →
      digestCount t' (List.replicate 32 5) = 1) :=
  C1_save_sequence_unique hashW marshalW
    (by
      intro e r h
      injection h with h
      rw [← h]
      simp)
    [(0, 5), (2, 5)] 5 (List.replicate 32 5) rfl

/-! ### Deletion -/

theorem foldl_guard_eq_self
    (bDelete : Table → Key → Except String Table) (root : List Byte) :
    ∀ (ks : List Key) (acc : Table), (∀ k ∈ ks, root.isSuffixOf k = false) →
    ks.foldl (fun acc k =>
        if root.isSuffixOf k then
          match bDelete acc k with
          | .ok acc2 => acc2
          | .error _ => acc
        else acc) acc = acc := by
  intro ks
  induction ks with
  | nil =>
    intro acc _
    rfl
  | cons k ks ih =>
    intro acc h
    rw [List.foldl_cons]
    have hk : root.isSuffixOf k = false := h k (List.mem_cons_self _ _)
    simp only [hk, Bool.false_eq_true, if_false]
    exact ih acc (fun k' hk' => h k' (List.mem_cons_of_mem _ hk'))

/-- C5: deleting an evidence object whose digest matches no stored key
succeeds and leaves every key/value pair of the table unchanged. -/
theorem C5_delete_missing_noop {Evidence : Type}
    (hashTreeRoot : Evidence → Except String (List Byte))
    (t : Table) (e : Evidence) (root : List Byte)
    (hr : hashTreeRoot e = .ok root)
    (hnone : ∀ kv ∈ t, root.isSuffixOf kv.1 = false) :
    deleteAttesterSlashing hashTreeRoot engineDel t e = .ok t := by
  simp only [deleteAttesterSlashing, hr]
  rw [foldl_guard_eq_self engineDel root (t.map fun kv => kv.1) t ?_]
  intro k hk
  obtain ⟨kv, hkv, rfl⟩ := List.mem_map.mp hk
  exact hnone kv hkv

/-- Witness for C5: deleting evidence `5` from a table holding only an
unrelated record returns the table unchanged, with no error. -/
theorem C5_witness :
    deleteAttesterSlashing hashW engineDel [(([9, 9] : Key), ([1] : Val))] 5
      = .ok [(([9, 9] : Key), ([1] : Val))] :=
  C5_delete_missing_noop hashW [(([9, 9] : Key), ([1] : Val))] 5
    (List.replicate 32 5) rfl (by decide)

theorem foldl_guardDel_eq_filter (root : List Byte) :
    ∀ (ks : List Key) (acc : Table),
    ks.foldl (fun acc k =>
        if root.isSuffixOf k then
          match engineDel acc k with
          | .ok acc2 => acc2
          | .error _ => acc
        else acc) acc
      = acc.filter (fun kv => !(decide (kv.1 ∈ ks) && root.isSuffixOf kv.1)) := by
  intro ks
  induction ks with
  | nil =>
    intro acc
    simp
  | cons k ks ih =>
    intro acc
    rw [List.foldl_cons, ih]
    by_cases hk : root.isSuffixOf k = true
    · simp only [hk, if_true]
      show (del acc k).filter _ = _
      rw [del, List.filter_filter]
      apply List.filter_congr
      intro kv _
      by_cases h1 : kv.1 = k
      · simp [h1, hk]
      · simp [h1, List.mem_cons]
    · have hk' : root.isSuffixOf k = false := Bool.eq_false_iff.mpr hk
      simp only [hk', Bool.false_eq_true, if_false]
      apply List.filter_congr
      intro kv _
      by_cases h1 : kv.1 = k
      · simp [h1, hk', List.mem_cons]
      · simp [h1, List.mem_cons]

theorem deleteAll_eq_filter {Evidence : Type}
    (hashTreeRoot : Evidence → Except String (List Byte))
    {t : Table} {e : Evidence} {root : List Byte}
    (hr : hashTreeRoot e = .ok root) :
    deleteAttesterSlashing hashTreeRoot engineDel t e
      = .ok (t.filter (fun kv => !root.isSuffixOf kv.1)) := by
  simp only [deleteAttesterSlashing, hr]
  rw [foldl_guardDel_eq_filter root (t.map fun kv => kv.1) t]
  apply congrArg
  apply List.filter_congr
  intro kv hkv
  have hmem : kv.1 ∈ t.map (fun kv => kv.1) := List.mem_map.mpr ⟨kv, hkv, rfl⟩
  simp [hmem]

theorem has_after_deleteAll {Evidence : Type}
    (hashTreeRoot : Evidence → Except String (List Byte))
    (t : Table) {e : Evidence} {root : List Byte}
    (hr : hashTreeRoot e = .ok root) :
    hasAttesterSlashing hashTreeRoot
      (t.filter (fun kv => !root.isSuffixOf kv.1)) e = .ok (false, 0) := by
  simp only [hasAttesterSlashing, hr]
  have hnone : (t.filter (fun kv => !root.isSuffixOf kv.1)).find?
      (fun kv => root.isSuffixOf kv.1) = none := by
    rw [List.find?_eq_none]
    intro kv hkv
    have h2 := (List.mem_filter.mp hkv).2
    simp only [Bool.not_eq_true'] at h2
    simp [h2]
  rw [hnone]

/-- C9: `DeleteAttesterSlashingWithStatus` removes at most the single key
`(status, Attestation, digest)`: membership in the result is membership in
the input minus exactly that key, and when the key is absent the call
succeeds and returns the table unchanged. -/
theorem C9_delete_exact {Evidence : Type}
    (hashTreeRoot : Evidence → Except String (List Byte))
    (t : Table) (s : SlashingStatus) (e : Evidence) (root : List Byte)
    (hr : hashTreeRoot e = .ok root) :
    ∃ t', deleteAttesterSlashingWithStatus hashTreeRoot t s e = .ok t' ∧
      (∀ kv : Key × Val,
        kv ∈ t' ↔ kv ∈ t ∧ kv.1 ≠ encodeStatusTypeRoot s Attestation root) ∧
      ((∀ kv ∈ t, kv.1 ≠ encodeStatusTypeRoot s Attestation root) → t' = t) := by
  refine ⟨del t (encodeStatusTypeRoot s Attestation root), ?_, ?_, ?_⟩
  · simp only [deleteAttesterSlashingWithStatus, hr]
  · intro kv
    simp [del, List.mem_filter]
  · intro h
    unfold del
    rw [List.filter_eq_self]
    intro kv hkv
    simpa using h kv hkv

/-- Witness for C9: deleting evidence `5` with status `0` from a table
holding that exact record plus an unrelated one removes only the exact
key. -/
theorem C9_witness :
    ∃ t', deleteAttesterSlashingWithStatus hashW
        [(([9, 9] : Key), ([1] : Val)),
         ((0 : Byte) :: (1 : Byte) :: List.replicate 32 5, [5])] 0 5 = .ok t' ∧
      (∀ kv : Key × Val,
        kv ∈ t' ↔ kv ∈ [(([9, 9] : Key), ([1] : Val)),
          ((0 : Byte) :: (1 : Byte) :: List.replicate 32 5, [5])] ∧
          kv.1 ≠ encodeStatusTypeRoot 0 Attestation (List.replicate 32 5)) ∧
      ((∀ kv ∈ [(([9, 9] : Key), ([1] : Val)),
          ((0 : Byte) :: (1 : Byte) :: List.replicate 32 5, [5])],
          kv.1 ≠ encodeStatusTypeRoot 0 Attestation (List.replicate 32 5)) →
        t' = [(([9, 9] : Key), ([1] : Val)),
          ((0 : Byte) :: (1 : Byte) :: List.replicate 32 5, [5])]) :=
  C9_delete_exact hashW
    [(([9, 9] : Key), ([1] : Val)),
     ((0 : Byte) :: (1 : Byte) :: List.replicate 32 5, [5])] 0 5
    (List.replicate 32 5) rfl

/-- C7 (code evaluation): with an engine whose bucket delete fails,
`DeleteAttesterSlashing` still reports success and the matching record is
left in place — the delete error raised inside `ForEach` is discarded, not
returned to the caller. -/
theorem C7_delete_error_swallowed :
    badDel [((0 : Byte) :: (1 : Byte) :: List.replicate 32 5, [5])]
        ((0 : Byte) :: (1 : Byte) :: List.replicate 32 5) = .error "disk failure" ∧
    deleteAttesterSlashing hashW badDel
        [((0 : Byte) :: (1 : Byte) :: List.replicate 32 5, [5])] 5
      = .ok [((0 : Byte) :: (1 : Byte) :: List.replicate 32 5, [5])] :=
  ⟨rfl, rfl⟩

/-! ### Listing -/

/-- C10: on any table whose values under the `(status, Attestation)` key
range all deserialize, `AttesterSlashings` and `AttestingSlashingsByStatus`
return the same sequence of evidence objects, both without error. -/
theorem C10_listing_equivalence {Evidence : Type}
    (unmarshal : Val → Except String Evidence)
    (t : Table) (s : SlashingStatus)
    (h : ∀ kv ∈ t, (encodeStatusType s Attestation).isPrefixOf kv.1 = true →
      ∃ x, unmarshal kv.2 = .ok x) :
    ∃ l, attesterSlashings unmarshal t s = .ok l ∧
      attestingSlashingsByStatus unmarshal t s = .ok l := by
  have hall : ∀ v ∈ (seekScan t (encodeStatusType s Attestation)).map (fun kv => kv.2),
      ∃ x, unmarshal v = .ok x := by
    intro v hv
    obtain ⟨kv, hkv, rfl⟩ := List.mem_map.mp hv
    obtain ⟨hmem, hpre⟩ := mem_seekScan hkv
    exact h kv hmem hpre
  obtain ⟨l, hl⟩ := decodeAll_isOk_of_all unmarshal _ hall
  refine ⟨l, hl, ?_⟩
  rw [attestingSlashingsByStatus, scanDecode_eq_decodeAll]
  exact hl

/-- Witness for C10: on a one-record table with a well-formed value both
listing operations return the same one-element list. -/
theorem C10_witness :
    ∃ l, attesterSlashings unmarshalW [(([0, 1, 7] : Key), ([4] : Val))] 0 = .ok l ∧
      attestingSlashingsByStatus unmarshalW [(([0, 1, 7] : Key), ([4] : Val))] 0 = .ok l :=
  C10_listing_equivalence unmarshalW [(([0, 1, 7] : Key), ([4] : Val))] 0
    (by
      intro kv hkv _
      rw [List.mem_singleton] at hkv
      subst hkv
      exact ⟨4, rfl⟩)

/-- C8: when some value stored under the `(status, Attestation)` key range
fails to deserialize, both listing operations abort the whole read with an
error instead of returning a best-effort sequence. -/
theorem C8_decode_failure_aborts {Evidence : Type}
    (unmarshal : Val → Except String Evidence)
    (t : Table) (s : SlashingStatus) (ht : TSorted t)
    (kv : Key × Val) (e : String)
    (hmem : kv ∈ t)
    (hpre : (encodeStatusType s Attestation).isPrefixOf kv.1 = true)
    (herr : unmarshal kv.2 = .error e) :
    (∃ e1, attesterSlashings unmarshal t s = .error e1) ∧
    (∃ e2, attestingSlashingsByStatus unmarshal t s = .error e2) := by
  have hscan : kv ∈ seekScan t (encodeStatusType s Attestation) := by
    rw [seekScan_eq_filter _ ht]
    exact List.mem_filter.mpr ⟨hmem, hpre⟩
  have hv : kv.2 ∈ (seekScan t (encodeStatusType s Attestation)).map (fun kv => kv.2) :=
    List.mem_map.mpr ⟨kv, hscan, rfl⟩
  obtain ⟨e2, he2⟩ := decodeAll_isError_of_mem unmarshal hv herr
  refine ⟨⟨e2, he2⟩, ?_⟩
  refine ⟨e2, ?_⟩
  rw [attestingSlashingsByStatus, scanDecode_eq_decodeAll]
  exact he2

/-- Witness for C8: a table holding one record under status `0` whose
value is a malformed encoding makes both listing operations return an
error. -/
theorem C8_witness :
    (∃ e1, attesterSlashings unmarshalW [(([0, 1, 7] : Key), ([] : Val))] 0 = .error e1) ∧
    (∃ e2, attestingSlashingsByStatus unmarshalW [(([0, 1, 7] : Key), ([] : Val))] 0 = .error e2) :=
  C8_decode_failure_aborts unmarshalW [(([0, 1, 7] : Key), ([] : Val))] 0
    (by simp [TSorted]) (([0, 1, 7] : Key), ([] : Val)) "malformed encoding"
    (List.mem_singleton.mpr rfl) rfl rfl

/-! ### Saving and removing one object -/

theorem save_preserves_alias {Evidence : Type}
    (hashTreeRoot : Evidence → Except String (List Byte))
    (marshal : Evidence → Except String Val)
    (unmarshal : Val → Except String Evidence)
    {t t' : Table} {s : SlashingStatus} {e : Evidence} {root : List Byte}
    (hr : hashTreeRoot e = .ok root)
    (hsv : saveAttesterSlashing hashTreeRoot marshal t s e = .ok t')
    (halias : ∀ kv ∈ t, unmarshal kv.2 = .ok e → root.isSuffixOf kv.1 = true) :
    ∀ kv ∈ t', unmarshal kv.2 = .ok e → root.isSuffixOf kv.1 = true := by
  rcases save_result hashTreeRoot marshal hsv with ⟨rfl, _⟩ | hupd
  · exact halias
  · obtain ⟨root', enc, hr', hm, ht'⟩ := update_isOk hashTreeRoot marshal hupd
    rw [hr] at hr'
    injection hr' with hr'
    subst hr'
    subst ht'
    intro kv hkv hdec
    rcases mem_after_update hkv with rfl | ⟨hkvt, _⟩
    · exact isSuffixOf_encode s Attestation root
    · exact halias kv hkvt hdec

theorem save_preserves_sorted {Evidence : Type}
    (hashTreeRoot : Evidence → Except String (List Byte))
    (marshal : Evidence → Except String Val)
    {t t' : Table} {s : SlashingStatus} {e : Evidence}
    (hsv : saveAttesterSlashing hashTreeRoot marshal t s e = .ok t')
    (ht : TSorted t) : TSorted t' := by
  rcases save_result hashTreeRoot marshal hsv with ⟨rfl, _⟩ | hupd
  · exact ht
  · obtain ⟨root, enc, _, _, ht'⟩ := update_isOk hashTreeRoot marshal hupd
    subst ht'
    exact TSorted_put _ _ (TSorted_filter _ ht)

/-- C6: after saving an evidence object with some status and then calling
`DeleteAttesterSlashing`, `HasAttesterSlashing` reports the object absent
and the status listing no longer contains it.  The `halias` hypothesis
records that in the starting table only records carrying the object's own
digest suffix decode to it (the digest identifies the content). -/
theorem C6_full_removal {Evidence : Type}
    (hashTreeRoot : Evidence → Except String (List Byte))
    (marshal : Evidence → Except String Val)
    (unmarshal : Val → Except String Evidence)
    (t t1 : Table) (s : SlashingStatus) (e : Evidence) (root : List Byte)
    (hr : hashTreeRoot e = .ok root)
    (hsv : saveAttesterSlashing hashTreeRoot marshal t s e = .ok t1)
    (halias : ∀ kv ∈ t, unmarshal kv.2 = .ok e → root.isSuffixOf kv.1 = true) :
    ∃ t2, deleteAttesterSlashing hashTreeRoot engineDel t1 e = .ok t2 ∧
      hasAttesterSlashing hashTreeRoot t2 e = .ok (false, 0) ∧
      (∀ l, attesterSlashings unmarshal t2 s = .ok l → e ∉ l) := by
  refine ⟨t1.filter (fun kv => !root.isSuffixOf kv.1),
    deleteAll_eq_filter hashTreeRoot hr, has_after_deleteAll hashTreeRoot t1 hr, ?_⟩
  intro l hl hmem
  have hP1 := save_preserves_alias hashTreeRoot marshal unmarshal hr hsv halias
  have hl' : decodeAll unmarshal (((seekScan (t1.filter (fun kv => !root.isSuffixOf kv.1))
      (encodeStatusType s Attestation))).map (fun kv => kv.2)) = .ok l := hl
  have hf := decodeAll_forall₂ unmarshal hl'
  obtain ⟨v, hv, hod⟩ := exists_src_of_forall₂_mem hf hmem
  obtain ⟨kv, hkscan, rfl⟩ := List.mem_map.mp hv
  obtain ⟨hkt2, _⟩ := mem_seekScan hkscan
  obtain ⟨hkt1, hns⟩ := List.mem_filter.mp hkt2
  rw [hP1 kv hkt1 hod] at hns
  simp at hns

/-- Witness for C6: saving evidence `5` with status `0` into the empty
table, then deleting all its copies, leaves a table where the object is
reported absent and unlisted. -/
theorem C6_witness :
    ∃ t2, deleteAttesterSlashing hashW engineDel
        [((0 : Byte) :: (1 : Byte) :: List.replicate 32 5, [5])] 5 = .ok t2 ∧
      hasAttesterSlashing hashW t2 5 = .ok (false, 0) ∧
      (∀ l, attesterSlashings unmarshalW t2 0 = .ok l → 5 ∉ l) :=
  C6_full_removal hashW marshalW unmarshalW []
    [((0 : Byte) :: (1 : Byte) :: List.replicate 32 5, [5])] 0 5
    (List.replicate 32 5) rfl rfl
    (by
      intro kv hkv
      exact absurd hkv (List.not_mem_nil kv))

/-! ### Status moves -/

theorem decodesTo_iff {Evidence : Type} [DecidableEq Evidence]
    (unmarshal : Val → Except String Evidence) (y : Evidence) (v : Val) :
    decodesTo unmarshal y v = true ↔ unmarshal v = .ok y := by
  unfold decodesTo
  cases h : unmarshal v with
  | ok x => simp
  | error err => simp

theorem isPrefixOf_statusKey_self (s ty : Byte) (root : List Byte) :
    (encodeStatusType s ty).isPrefixOf (encodeStatusTypeRoot s ty root) = true := by
  simp [encodeStatusType, encodeStatusTypeRoot, List.isPrefixOf]

theorem eq_of_isPrefixOf_statusKey {a b ty : Byte} {root : List Byte}
    (h : (encodeStatusType a ty).isPrefixOf (encodeStatusTypeRoot b ty root) = true) :
    a = b := by
  simp [encodeStatusType, encodeStatusTypeRoot, List.isPrefixOf] at h
  exact h

theorem save_isOk {Evidence : Type}
    (hashTreeRoot : Evidence → Except String (List Byte))
    (marshal : Evidence → Except String Val)
    {e : Evidence} {root : List Byte} {enc : Val}
    (t : Table) (s : SlashingStatus)
    (hr : hashTreeRoot e = .ok root) (hm : marshal e = .ok enc) :
    ∃ t', saveAttesterSlashing hashTreeRoot marshal t s e = .ok t' := by
  unfold saveAttesterSlashing
  cases hh : hasAttesterSlashing hashTreeRoot t e with
  | error err =>
    exfalso
    simp only [hasAttesterSlashing, hr] at hh
    cases hf : t.find? (fun kv => root.isSuffixOf kv.1) <;> simp [hf] at hh
  | ok p =>
    obtain ⟨found, st⟩ := p
    show ∃ t', (if (found && st == s) = true then Except.ok t
      else updateAttesterSlashingStatus hashTreeRoot marshal t e s) = Except.ok t'
    by_cases hc : (found && st == s) = true
    · rw [if_pos hc]
      exact ⟨t, rfl⟩
    · rw [if_neg hc]
      exact ⟨_, update_eq hashTreeRoot marshal hr hm⟩

theorem has_after_save_aux {Evidence : Type}
    (hashTreeRoot : Evidence → Except String (List Byte))
    (marshal : Evidence → Except String Val)
    {t t' : Table} {s : SlashingStatus} {e : Evidence}
    (h : saveAttesterSlashing hashTreeRoot marshal t s e = .ok t') :
    hasAttesterSlashing hashTreeRoot t' e = .ok (true, s) := by
  rcases save_result hashTreeRoot marshal h with ⟨rfl, hhas⟩ | hupd
  · exact hhas
  · exact has_after_update hashTreeRoot marshal hupd

theorem save_second_update {Evidence : Type}
    (hashTreeRoot : Evidence → Except String (List Byte))
    (marshal : Evidence → Except String Val)
    {t1 : Table} {s1 s2 : SlashingStatus} {e : Evidence} {root : List Byte} {enc : Val}
    (hhas1 : hasAttesterSlashing hashTreeRoot t1 e = .ok (true, s1))
    (hss : s1 ≠ s2) (hr : hashTreeRoot e = .ok root) (hm : marshal e = .ok enc) :
    saveAttesterSlashing hashTreeRoot marshal t1 s2 e
      = .ok (put (t1.filter (fun kv => !root.isSuffixOf kv.1))
          (encodeStatusTypeRoot s2 Attestation root) enc) := by
  simp only [saveAttesterSlashing, hhas1]
  have hc : ¬ ((true && (s1 == s2)) = true) := by simp [hss]
  rw [if_neg hc]
  exact update_eq hashTreeRoot marshal hr hm

/-- C3: saving an object with status `s1` and then with a different status
`s2` makes the `s1` listing no longer contain the object and the `s2`
listing contain exactly one copy of it.  The hypotheses record that the
collaborators are coherent on this object (its digest and encoding are
computable and its encoding round-trips) and that in the starting table
only records carrying the object's own digest suffix decode to it. -/
theorem C3_status_move {Evidence : Type} [DecidableEq Evidence]
    (hashTreeRoot : Evidence → Except String (List Byte))
    (marshal : Evidence → Except String Val)
    (unmarshal : Val → Except String Evidence)
    (t : Table) (ht : TSorted t)
    (s1 s2 : SlashingStatus) (hss : s1 ≠ s2)
    (e : Evidence) (root : List Byte) (enc : Val)
    (hr : hashTreeRoot e = .ok root) (hm : marshal e = .ok enc)
    (hrt : unmarshal enc = .ok e)
    (halias : ∀ kv ∈ t, unmarshal kv.2 = .ok e → root.isSuffixOf kv.1 = true) :
    ∃ t1 t2,
      saveAttesterSlashing hashTreeRoot marshal t s1 e = .ok t1 ∧
      saveAttesterSlashing hashTreeRoot marshal t1 s2 e = .ok t2 ∧
      (∀ l, attesterSlashings unmarshal t2 s1 = .ok l → e ∉ l) ∧
      (∀ l, attesterSlashings unmarshal t2 s2 = .ok l → l.count e = 1) := by
  obtain ⟨t1, hsv1⟩ := save_isOk hashTreeRoot marshal t s1 hr hm
  have hhas1 := has_after_save_aux hashTreeRoot marshal hsv1
  have hsort1 : TSorted t1 := save_preserves_sorted hashTreeRoot marshal hsv1 ht
  have hP1 := save_preserves_alias hashTreeRoot marshal unmarshal hr hsv1 halias
  have hsv2 := save_second_update hashTreeRoot marshal hhas1 hss hr hm
  refine ⟨t1, put (t1.filter (fun kv => !root.isSuffixOf kv.1))
    (encodeStatusTypeRoot s2 Attestation root) enc, hsv1, hsv2, ?_, ?_⟩
  · intro l hl hmem
    have hl' : decodeAll unmarshal
        ((seekScan (put (t1.filter (fun kv => !root.isSuffixOf kv.1))
          (encodeStatusTypeRoot s2 Attestation root) enc)
          (encodeStatusType s1 Attestation)).map (fun kv => kv.2)) = .ok l := hl
    have hf := decodeAll_forall₂ unmarshal hl'
    obtain ⟨v, hv, hod⟩ := exists_src_of_forall₂_mem hf hmem
    obtain ⟨kv, hkscan, rfl⟩ := List.mem_map.mp hv
    obtain ⟨hkt2, hpre⟩ := mem_seekScan hkscan
    rcases mem_after_update hkt2 with rfl | ⟨hkt1, hnsuf⟩
    · exact hss (eq_of_isPrefixOf_statusKey hpre)
    · rw [hP1 kv hkt1 hod] at hnsuf
      simp at hnsuf
  · intro l hl
    have hl' : decodeAll unmarshal
        ((seekScan (put (t1.filter (fun kv => !root.isSuffixOf kv.1))
          (encodeStatusTypeRoot s2 Attestation root) enc)
          (encodeStatusType s2 Attestation)).map (fun kv => kv.2)) = .ok l := hl
    have hf := decodeAll_forall₂ unmarshal hl'
    rw [count_of_forall₂ unmarshal e hf, List.countP_map,
      seekScan_eq_filter _ (TSorted_put _ _ (TSorted_filter _ hsort1)),
      List.countP_filter,
      countP_put _ _ _ _ (filter_no_encode_key s2 Attestation)]
    have h0 : (t1.filter (fun kv => !root.isSuffixOf kv.1)).countP
        (fun kv => ((decodesTo unmarshal e ∘ fun kv => kv.2) kv
          && (encodeStatusType s2 Attestation).isPrefixOf kv.1)) = 0 := by
      rw [List.countP_eq_zero]
      intro kv hkv hcon
      rw [Bool.and_eq_true] at hcon
      have hdec := (decodesTo_iff unmarshal e kv.2).mp hcon.1
      obtain ⟨hkt1, hnsuf⟩ := List.mem_filter.mp hkv
      rw [hP1 kv hkt1 hdec] at hnsuf
      simp at hnsuf
    rw [h0]
    have h1 : ((decodesTo unmarshal e ∘ fun kv : Key × Val => kv.2)
        (encodeStatusTypeRoot s2 Attestation root, enc)
        && (encodeStatusType s2 Attestation).isPrefixOf
          (encodeStatusTypeRoot s2 Attestation root, enc).1) = true := by
      rw [Bool.and_eq_true]
      exact ⟨(decodesTo_iff unmarshal e enc).mpr hrt,
        isPrefixOf_statusKey_self s2 Attestation root⟩
    rw [if_pos h1]

/-- Witness for C3: on the empty table, saving evidence `5` with status
`0` then with status `2` removes it from the status-`0` listing and lists
it exactly once under status `2`. -/
theorem C3_witness :
    ∃ t1 t2,
      saveAttesterSlashing hashW marshalW [] 0 5 = .ok t1 ∧
      saveAttesterSlashing hashW marshalW t1 2 5 = .ok t2 ∧
      (∀ l, attesterSlashings unmarshalW t2 0 = .ok l → 5 ∉ l) ∧
      (∀ l, attesterSlashings unmarshalW t2 2 = .ok l → l.count 5 = 1) :=
  C3_status_move hashW marshalW unmarshalW [] (by simp [TSorted]) 0 2
    (by decide) 5 (List.replicate 32 5) [5] rfl rfl rfl
    (by
      intro kv hkv
      exact absurd hkv (List.not_mem_nil kv))

end SlasherDB
